import Mathlib

/-!
Verification development for the autonomous-agent core ("gurgeh"):
shallow embedding in Lean 4 of the path sandbox (`memory.ts`), the policy
engine (`moral-engine.ts`), the economic ledger (`economics.ts`), the
sandboxed executor (`action-executor.ts`), the disclosure injector
(`tools/serve.ts`), the action parser (`action-parser.ts`), the awakening
supervisor's single-flight state (`index.ts`) and the delegation
orchestrator (`swarm.ts`).

Strings are modelled as `String` / `List Char`; JavaScript `includes`,
`startsWith`, first-occurrence `replace` and the handful of regex patterns
used by the code are embedded as executable Lean functions below.  All
source strings involved are ASCII, so the difference between UTF-16 code
units (JS) and code points (Lean) is immaterial for the reasoned-about
operations.  File-system effects are modelled as explicit state passing
over `FS := String → Option String`; monetary amounts use `Rat` (the code
uses IEEE doubles only through exact recomputation from running totals,
so the algebraic structure is preserved).
-/

namespace Gurgeh

/-- ECMAScript `\s` (whitespace class), restricted to the characters that
can realistically occur; includes all ASCII whitespace plus NBSP and the
Unicode space separators used by JS. -/
def jsSpace (c : Char) : Bool :=
  c = ' ' || c = '\t' || c = '\n' || c = '\r' || c = '\u000b' || c = '\u000c' ||
  c = '\u00a0' || c = '\u1680' || c = '\u2000' || c = '\u2001' || c = '\u2002' ||
  c = '\u2003' || c = '\u2004' || c = '\u2005' || c = '\u2006' || c = '\u2007' ||
  c = '\u2008' || c = '\u2009' || c = '\u200a' || c = '\u2028' || c = '\u2029' ||
  c = '\u202f' || c = '\u205f' || c = '\u3000' || c = '\ufeff'

/-- `hasPre p s` : `p` is a prefix of `s` (JS `startsWith`). -/
def hasPre : List Char → List Char → Bool
  | [], _ => true
  | _ :: _, [] => false
  | a :: p, b :: s => a == b && hasPre p s

/-- `hasSuf x u` : `x` is a suffix of `u` (JS `endsWith`). -/
def hasSuf (x u : List Char) : Bool := hasPre x.reverse u.reverse

/-- `hasSub t s` : `t` occurs contiguously in `s` (JS `includes`). -/
def hasSub (t : List Char) : List Char → Bool
  | [] => t.isEmpty
  | c :: s => hasPre t (c :: s) || hasSub t s

/-- JS `String.prototype.replace` with a plain-string pattern: replaces the
first occurrence of `needle` (if any) by `repl`.  The needles used in the
source are all non-empty. -/
def replaceFirst (needle repl : List Char) : List Char → List Char
  | [] => if hasPre needle [] then repl else []
  | c :: s =>
    if hasPre needle (c :: s) then repl ++ (c :: s).drop needle.length
    else c :: replaceFirst needle repl s

/-- Split `s` at the first occurrence of `needle`, returning the part before
and the part after the occurrence. -/
def splitAtSub (needle : List Char) : List Char → Option (List Char × List Char)
  | [] => if hasPre needle [] then some ([], []) else none
  | c :: s =>
    if hasPre needle (c :: s) then some ([], (c :: s).drop needle.length)
    else (splitAtSub needle s).map (fun p => (c :: p.1, p.2))

/-! ## Path sandbox (`memory.ts`) -/

/-- Split a character list on `'/'`, keeping empty segments
(`path.posix.normalize` preprocessing). -/
def splitSlash : List Char → List (List Char)
  | [] => [[]]
  | c :: s =>
    if c = '/' then [] :: splitSlash s
    else
      match splitSlash s with
      | seg :: rest => (c :: seg) :: rest
      | [] => [[c]]

/-- Segment resolution of Node's `path.posix.normalize` for an absolute
path (`allowAboveRoot = false`): empty and `.` segments are dropped, `..`
pops the previous segment (or is dropped at the root), anything else is
kept. -/
def normSegs (segs : List (List Char)) : List (List Char) :=
  segs.foldl
    (fun st seg =>
      if seg = [] || seg = ['.'] then st
      else if seg = ['.', '.'] then st.dropLast
      else st ++ [seg]) []

/-- Node `path.posix.normalize` on a slash-rooted path: resolve segments,
re-root, and preserve a trailing separator (Node returns just `/` when all
segments resolve away). -/
def posixNormalizeAbs (s : List Char) : List Char :=
  let st := normSegs (splitSlash s)
  if st = [] then ['/']
  else '/' :: List.intercalate ['/'] st ++ (if s.getLast? = some '/' then ['/'] else [])

/-- `memory.ts` protected write-path roots. -/
def PROTECTED_PREFIXES : List String :=
  ["/opt/agent", "/etc", "/usr", "/bin", "/sbin", "/root"]

/-- `memory.ts` protected individual files. -/
def PROTECTED_FILES : List String := ["/founding-document.md"]

/-- `memory.ts` allow-listed writable zones. -/
def ALLOWED_PREFIXES : List String :=
  ["/self/", "/projects/", "/income/", "/comms/", "/public/"]

/-- The per-file write size ceiling (1 MB) of `memory.ts`. -/
def MAX_FILE_SIZE : Nat := 1 * 1024 * 1024

/-- `validatePath`'s normalisation of the logical path:
`path.posix.normalize('/' + inputPath.replace(/\\/g, '/').replace(/^\/+/, ''))`. -/
def normalizeLogical (inputPath : String) : List Char :=
  let cleaned :=
    (inputPath.data.map (fun c => if c = '\\' then '/' else c)).dropWhile (fun c => c = '/')
  posixNormalizeAbs ('/' :: cleaned)

/-- `resolvePath` for the production configuration `baseDir = '/'`:
`path.resolve` of an already-normalized absolute path only strips a
trailing separator.  (The `baseDir ≠ '/'` testing remap and the
symlink-realpath check are filesystem I/O outside this embedding.) -/
def resolveAbs (p : String) : String :=
  if p ≠ "/" && hasSuf ['/'] p.data then String.mk (p.data.dropLast) else p

/-- `memory.ts` `validatePath`.  Applies, in source order: traversal check
on the normalized logical path, protected-file check, protected-prefix
check, allow-list check; on success returns the resolved physical path.
Thrown `Error`s are modelled as `Except.error`. -/
def validatePath (inputPath : String) : Except String String :=
  let normalized := normalizeLogical inputPath
  if hasSub ("..".data) normalized then
    .error ("Path traversal blocked: " ++ inputPath)
  else if PROTECTED_FILES.any (fun pf => normalized = pf.data) then
    .error ("Protected file — cannot write: " ++ inputPath)
  else if PROTECTED_PREFIXES.any (fun pre => hasPre pre.data normalized) then
    .error ("Protected path — cannot write: " ++ inputPath)
  else if ALLOWED_PREFIXES.any (fun pre => hasPre pre.data normalized) then
    .ok (resolveAbs (String.mk normalized))
  else
    .error ("Path not in allowed directories: " ++ inputPath ++ ". Allowed: " ++
      String.intercalate ", " ALLOWED_PREFIXES)

/-! ## Data model (`types.ts`)

`Action.type` is kept as a `String`, mirroring the dynamic tag switch of the
TypeScript (the union type is a compile-time fiction: `parseActions` casts an
arbitrary attribute string into the field).  Optional fields are `Option`. -/

structure Action where
  type : String
  path : Option String := none
  mode : Option String := none
  content : String := ""
  «to» : Option String := none
  url : Option String := none
  cron : Option String := none
  label : Option String := none
  timeout : Option Int := none
  workingDir : Option String := none
  aspectRatio : Option String := none
  taskType : Option String := none
deriving DecidableEq, Repr

structure DecisionRecord where
  id : String
  timestamp : String
  action_type : String
  description : String
  harm_assessment : String
  decision : String
  reasoning : String
deriving DecidableEq, Repr

structure PromptUsage where
  input_tokens : Nat
  output_tokens : Nat
deriving DecidableEq, Repr

structure ExecutionResult where
  action : Action
  success : Bool
  error : Option String := none
deriving DecidableEq, Repr

/-- JS template interpolation of a possibly-`undefined` field. -/
def jsShow : Option String → String
  | some s => s
  | none => "undefined"

/-- JS `s.slice(0, 100)` (all sliced strings here are code-point strings). -/
def slice100 (s : String) : String := String.mk (s.data.take 100)

/-- JS truthiness of an optional string field (`undefined` and `''` are falsy). -/
def strTruthy : Option String → Bool
  | some s => !(s = "")
  | none => false

/-! ## Policy engine (`moral-engine.ts`)

The six `BLOCKED_COMMAND_PATTERNS` regexes are embedded one by one.  Each
`pAt` function decides whether the pattern matches starting exactly at the
given position; `RegExp.test` is `anyTail pAt`.  Greedy `\s+`/`\s*` handling
is exact here because in every pattern the atom following the whitespace
class cannot itself match a whitespace character (and in pattern 4 the
following `.*` can absorb any shorter whitespace run, so the maximal run is
complete). -/

/-- Try to consume the literal `lit` at the head of `s`. -/
def litP (lit s : List Char) : Option (List Char) :=
  if hasPre lit s then some (s.drop lit.length) else none

/-- Consume `\s+` (at least one whitespace character, then greedily all). -/
def ws1 : List Char → Option (List Char)
  | [] => none
  | c :: s => if jsSpace c then some (s.dropWhile jsSpace) else none

/-- `.*lit` : some prefix without `'\n'`, then the literal `lit`. -/
def dotStarThen (lit : List Char) : List Char → Bool
  | [] => hasPre lit []
  | c :: s => hasPre lit (c :: s) || (!(c = '\n') && dotStarThen lit s)

/-- Run `f` at every suffix of `s` (regex search over all start positions). -/
def anyTail (f : List Char → Bool) : List Char → Bool
  | [] => f []
  | c :: s => f (c :: s) || anyTail f s

/-- `/rm\s+-rf\s+\/\s*$/` at a fixed position. -/
def rmRfRootAt (s : List Char) : Bool :=
  match litP ("rm".data) s with
  | none => false
  | some s1 =>
    match ws1 s1 with
    | none => false
    | some s2 =>
      match litP ("-rf".data) s2 with
      | none => false
      | some s3 =>
        match ws1 s3 with
        | none => false
        | some s4 =>
          match litP ['/'] s4 with
          | none => false
          | some s5 => (s5.dropWhile jsSpace).isEmpty

/-- `/rm\s+-rf\s+\/[^s][^e][^l]/` at a fixed position. -/
def rmRfOtherAt (s : List Char) : Bool :=
  match litP ("rm".data) s with
  | none => false
  | some s1 =>
    match ws1 s1 with
    | none => false
    | some s2 =>
      match litP ("-rf".data) s2 with
      | none => false
      | some s3 =>
        match ws1 s3 with
        | none => false
        | some s4 =>
          match litP ['/'] s4 with
          | none => false
          | some s5 =>
            match s5 with
            | c1 :: c2 :: c3 :: _ => !(c1 = 's') && !(c2 = 'e') && !(c3 = 'l')
            | _ => false

/-- `/dd\s+.*of=\/dev\//` at a fixed position. -/
def ddDevAt (s : List Char) : Bool :=
  match litP ("dd".data) s with
  | none => false
  | some s1 =>
    match ws1 s1 with
    | none => false
    | some s2 => dotStarThen ("of=/dev/".data) s2

/-- `/>\s*\/dev\/[sh]d/` at a fixed position. -/
def redirDevAt (s : List Char) : Bool :=
  match litP ['>'] s with
  | none => false
  | some s1 =>
    match litP ("/dev/".data) (s1.dropWhile jsSpace) with
    | none => false
    | some s2 =>
      match s2 with
      | c1 :: c2 :: _ => (c1 = 's' || c1 = 'h') && c2 = 'd'
      | _ => false

/-- `/chmod\s+-R\s+777\s+\//` at a fixed position. -/
def chmodRootAt (s : List Char) : Bool :=
  match litP ("chmod".data) s with
  | none => false
  | some s1 =>
    match ws1 s1 with
    | none => false
    | some s2 =>
      match litP ("-R".data) s2 with
      | none => false
      | some s3 =>
        match ws1 s3 with
        | none => false
        | some s4 =>
          match litP ("777".data) s4 with
          | none => false
          | some s5 =>
            match ws1 s5 with
            | none => false
            | some s6 => (litP ['/'] s6).isSome

/-- An entry of `BLOCKED_COMMAND_PATTERNS`: the `test` function plus the
regex `source` text used in the block reasoning string. -/
structure CommandPattern where
  test : String → Bool
  source : String

/-- `moral-engine.ts` `BLOCKED_COMMAND_PATTERNS`, in source order. -/
def BLOCKED_COMMAND_PATTERNS : List CommandPattern :=
  [ ⟨fun s => anyTail rmRfRootAt s.data, "rm\\s+-rf\\s+\\/\\s*$"⟩,
    ⟨fun s => anyTail rmRfOtherAt s.data, "rm\\s+-rf\\s+\\/[^s][^e][^l]"⟩,
    ⟨fun s => hasSub ("mkfs.".data) s.data, "mkfs\\."⟩,
    ⟨fun s => anyTail ddDevAt s.data, "dd\\s+.*of=\\/dev\\/"⟩,
    ⟨fun s => anyTail redirDevAt s.data, ">\\s*\\/dev\\/[sh]d"⟩,
    ⟨fun s => anyTail chmodRootAt s.data, "chmod\\s+-R\\s+777\\s+\\/"⟩ ]

/-- `moral-engine.ts` `EXTERNALLY_FACING_TYPES`. -/
def EXTERNALLY_FACING_TYPES : List String :=
  ["serve", "message", "fetch", "execute", "image", "delegate"]

/-- `moral-engine.ts` `evaluate`.  The generated unique id and the wall-clock
timestamp are passed in as parameters (the decision logic does not depend on
them); every branch reproduces the source's record verbatim. -/
def evaluate (id timestamp : String) (action : Action) : DecisionRecord :=
  if action.type = "write" && strTruthy action.path then
    let p := jsShow action.path
    if p = "/founding-document.md" || hasPre ("/founding-document".data) p.data then
      { id, timestamp, action_type := action.type,
        description := "Attempted write to founding document: " ++ p,
        harm_assessment := "Constitutional violation — founding document is immutable",
        decision := "block",
        reasoning := "The founding document cannot be modified. This is a hard constraint." }
    else if hasPre ("/opt/agent".data) p.data then
      { id, timestamp, action_type := action.type,
        description := "Attempted write to source code: " ++ p,
        harm_assessment := "Self-modification of source code is not permitted",
        decision := "block",
        reasoning := "The agent cannot modify its own source code." }
    else
      { id, timestamp, action_type := action.type,
        description := action.type ++ " action",
        harm_assessment := "Internal action with no external effects.",
        decision := "proceed",
        reasoning := "No harm pathway identified." }
  else if action.type = "serve" then
    { id, timestamp, action_type := "serve",
      description := "Serving content to " ++ jsShow action.path,
      harm_assessment := "Content will include AI disclosure footer. Low risk.",
      decision := "proceed",
      reasoning := "AI disclosure is automatically injected. Content serving is permitted." }
  else if action.type = "fetch" then
    { id, timestamp, action_type := "fetch",
      description := "Fetching URL: " ++ jsShow action.url,
      harm_assessment := "Domain allowlist enforced at execution layer.",
      decision := "proceed",
      reasoning := "Fetch requests are limited to the domain allowlist." }
  else if action.type = "image" then
    { id, timestamp, action_type := "image",
      description := "Image generation: " ++ slice100 action.content,
      harm_assessment := "Image generated via Gemini API, saved to public directory. Logged for audit.",
      decision := "proceed",
      reasoning := "Image generation is permitted. Output saved to /public/ and logged." }
  else if action.type = "execute" then
    match BLOCKED_COMMAND_PATTERNS.find? (fun pat => pat.test action.content) with
    | some pat =>
      { id, timestamp, action_type := "execute",
        description := "Blocked destructive command: " ++ slice100 action.content,
        harm_assessment := "Command matches destructive pattern denylist.",
        decision := "block",
        reasoning := "Command blocked by safety denylist: " ++ pat.source }
    | none =>
      { id, timestamp, action_type := "execute",
        description := "Shell command: " ++ slice100 action.content,
        harm_assessment := "Full shell access granted by operator. Command logged for audit.",
        decision := "proceed",
        reasoning := "Full shell access granted by operator. Command logged for audit." }
  else if action.type = "delegate" then
    if !strTruthy action.path then
      { id, timestamp, action_type := "delegate",
        description := "Delegate action missing target path",
        harm_assessment := "Cannot delegate without a target path.",
        decision := "block",
        reasoning := "Delegate actions require a path to write the generated content to." }
    else
      { id, timestamp, action_type := "delegate",
        description := "Delegating content generation to sub-agent for " ++ jsShow action.path,
        harm_assessment := "Sub-agent is read-only. Output goes through standard serve/write pipeline with disclosure injection.",
        decision := "proceed",
        reasoning := "Delegation is safe — sub-agent cannot write directly. Content passes through moral engine pipeline." }
  else if action.type = "message" then
    { id, timestamp, action_type := "message",
      description := "Message to " ++ jsShow action.«to» ++ ": " ++ slice100 action.content,
      harm_assessment := "Message saved to outbox for review. Not sent automatically.",
      decision := "proceed",
      reasoning := "Messages are stored locally, not sent externally. Low risk." }
  else
    { id, timestamp, action_type := action.type,
      description := action.type ++ " action",
      harm_assessment := "Internal action with no external effects.",
      decision := "proceed",
      reasoning := "No harm pathway identified." }

/-- `moral-engine.ts` `evaluateActions`, with the `logDecision` side effect
made explicit: returns the approved actions (first component) and the
decision records persisted to the decision store (second component).
Blocked actions are skipped with only a warning log; approved
externally-facing actions get their decision persisted.  The generated
ids/timestamps do not influence control flow and are modelled by `""`. -/
def evaluateActionsAux : List Action → List Action × List DecisionRecord
  | [] => ([], [])
  | a :: rest =>
    let d := evaluate "" "" a
    let t := evaluateActionsAux rest
    if d.decision = "block" then t
    else if EXTERNALLY_FACING_TYPES.contains a.type then (a :: t.1, d :: t.2)
    else (a :: t.1, t.2)

/-- The approved-action list returned by `evaluateActions`. -/
def evaluateActions (actions : List Action) : List Action :=
  (evaluateActionsAux actions).1

/-- The decision records persisted while filtering `actions`. -/
def loggedDecisions (actions : List Action) : List DecisionRecord :=
  (evaluateActionsAux actions).2

/-- In `runAwakening` (supervisor), `executeActions` is invoked on exactly
the output of `evaluateActions`: the actions the Executor receives. -/
def executedActions (actions : List Action) : List Action :=
  evaluateActions actions

/-! ## Economic ledger (`economics.ts`)

Dollar amounts are modelled as `Rat`; the code recomputes the balance from
the three running totals on every mutation, so the recurrences are exact.
`saveLedger` (synchronous persistence) is file I/O outside the pure state
transition and is not modelled. -/

structure EnergyTransaction where
  awakening : Nat
  timestamp : String
  input_tokens : Nat
  output_tokens : Nat
  cost : Rat
  type : String
deriving DecidableEq, Repr

structure EnergyLedger where
  balance_usd : Rat
  initial_budget_usd : Rat
  total_earned_usd : Rat
  total_spent_usd : Rat
  transactions : List EnergyTransaction
deriving DecidableEq, Repr

/-- `MODEL_RATES` with the `MODEL_RATES[modelType] || MODEL_RATES.opus`
fallback: per-million-token (input, output) dollar rates. -/
def modelRates (modelType : String) : Rat × Rat :=
  if modelType = "opus" then (5, 25)
  else if modelType = "haiku" then (4/5, 4)
  else (5, 25)

/-- `economics.ts` `calculateCost`. -/
def calculateCost (usage : PromptUsage) (modelType : String) : Rat :=
  let rates := modelRates modelType
  (usage.input_tokens : Rat) / 1000000 * rates.1 +
    (usage.output_tokens : Rat) / 1000000 * rates.2

/-- `economics.ts` `createDefaultLedger`. -/
def createDefaultLedger (initialBudget : Rat) : EnergyLedger :=
  { balance_usd := initialBudget
    initial_budget_usd := initialBudget
    total_earned_usd := 0
    total_spent_usd := 0
    transactions := [] }

/-- `economics.ts` `recordUsage` as a pure state transition on the ledger
(the module-level `currentLedger` cell made explicit); returns the new
ledger and the computed cost.  `transactions.slice(-100)` is
`drop (length - 100)`. -/
def recordUsage (ledger : EnergyLedger) (awakeningNumber : Nat) (usage : PromptUsage)
    (modelType : String) (timestamp : String) : EnergyLedger × Rat :=
  let cost := calculateCost usage modelType
  let spent := ledger.total_spent_usd + cost
  let bal0 := ledger.initial_budget_usd + ledger.total_earned_usd - spent
  let bal := if bal0 < 0 then 0 else bal0
  let txs0 := ledger.transactions ++
    [{ awakening := awakeningNumber, timestamp,
       input_tokens := usage.input_tokens, output_tokens := usage.output_tokens,
       cost, type := if modelType = "haiku" then "haiku_delegation" else "api_call" }]
  let txs := if txs0.length > 100 then txs0.drop (txs0.length - 100) else txs0
  ({ ledger with total_spent_usd := spent, balance_usd := bal, transactions := txs }, cost)

/-- Arguments of one `recordUsage` call. -/
structure RecordCall where
  awakening : Nat
  usage : PromptUsage
  modelType : String
  timestamp : String

/-- One `recordUsage` call as a ledger step (discarding the returned cost). -/
def recordStep (ledger : EnergyLedger) (c : RecordCall) : EnergyLedger :=
  (recordUsage ledger c.awakening c.usage c.modelType c.timestamp).1

/-! ## Awakening supervisor single-flight state (`index.ts`)

`triggerAwakening` / `runAwakening` guard on the module flag `isRunning`;
the `finally` block clears it.  The asynchronous interleaving points are the
`await`s inside a running cycle, so the observable events are "a trigger
arrives" and "the running cycle finishes".  `runningCount` counts cycles
currently inside `runAwakening`'s body and `startedCycles` the cycles ever
started; both are ghost observers of the side effects. -/

structure SupervisorState where
  isRunning : Bool
  runningCount : Nat
  startedCycles : Nat
deriving DecidableEq, Repr

/-- `triggerAwakening`: rejected with `false` (state untouched) while a
cycle is running, otherwise starts a cycle and returns `true`.
(`runAwakening` re-checks the same flag synchronously, so the double guard
collapses to one.) -/
def triggerAwakening (s : SupervisorState) : Bool × SupervisorState :=
  if s.isRunning then (false, s)
  else (true, { isRunning := true, runningCount := s.runningCount + 1,
                startedCycles := s.startedCycles + 1 })

/-- The `finally` block of `runAwakening`: the running cycle ends. -/
def finishAwakening (s : SupervisorState) : SupervisorState :=
  { s with isRunning := false, runningCount := s.runningCount - 1 }

inductive SupervisorEvent
  | trigger
  | finish
deriving DecidableEq, Repr

def stepSupervisor (s : SupervisorState) : SupervisorEvent → SupervisorState
  | .trigger => (triggerAwakening s).2
  | .finish => finishAwakening s

/-- Module initialisation: `isRunning = false`, nothing started. -/
def initialSupervisor : SupervisorState :=
  { isRunning := false, runningCount := 0, startedCycles := 0 }

/-- The supervisor state after a sequence of trigger/finish events. -/
def reachableSupervisor (events : List SupervisorEvent) : SupervisorState :=
  events.foldl stepSupervisor initialSupervisor

/-! ## Delegation orchestrator (`swarm.ts`) -/

structure DelegationResult where
  content : String
  usage : PromptUsage
deriving DecidableEq, Repr

/-- The configuration slice `executeDelegations` reads. -/
structure SwarmConfig where
  swarmMaxConcurrent : Nat
  swarmMaxBudget : Rat
deriving DecidableEq, Repr

/-- The inline Haiku rate computation of `executeDelegations`
(`rates = { input: 0.80, output: 4.00 }`). -/
def haikuDelegationCost (usage : PromptUsage) : Rat :=
  (usage.input_tokens : Rat) / 1000000 * (4/5) +
    (usage.output_tokens : Rat) / 1000000 * 4

/-- The batch slicing of the `for (let i = 0; i < actions.length;
i += swarmMaxConcurrent)` loop.  The fuel argument only serves totality:
the JS loop does not terminate either when the step is `0` (the config
default is `3`), and with positive step the fuel is never exhausted. -/
def toBatchesGo (n : Nat) : Nat → List Action → List (List Action)
  | 0, _ => []
  | _, [] => []
  | fuel + 1, l => l.take n :: toBatchesGo n fuel (l.drop n)

def toBatches (n : Nat) (l : List Action) : List (List Action) :=
  toBatchesGo n l.length l

/-- `swarm.ts` `executeDelegations`, batch by batch.  `oracle` stands for
`executeDelegation` (the reasoning-backend round trip); the second
component of the result lists the sub-task actions for which the backend
was actually invoked, making "invoked" observable.  Results are returned in
sub-task order (the JS `Map` keyed by action object, flattened).  Before a
batch starts, the accumulated cost is compared against
`config.swarmMaxBudget`; once reached, every remaining sub-task is assigned
`null` and the loop `break`s. -/
def executeDelegationsGo (cfg : SwarmConfig) (oracle : Action → Option DelegationResult) :
    Rat → List (List Action) → List (Option DelegationResult) × List Action
  | _, [] => ([], [])
  | acc, batch :: rest =>
    if cfg.swarmMaxBudget ≤ acc then
      (((batch :: rest).flatten).map (fun _ => none), [])
    else
      let batchResults := batch.map oracle
      let batchCost := batchResults.foldl
        (fun c r => match r with
          | some dr => c + haikuDelegationCost dr.usage
          | none => c) 0
      let t := executeDelegationsGo cfg oracle (acc + batchCost) rest
      (batchResults ++ t.1, batch ++ t.2)

def executeDelegations (cfg : SwarmConfig) (oracle : Action → Option DelegationResult)
    (actions : List Action) : List (Option DelegationResult) × List Action :=
  executeDelegationsGo cfg oracle 0 (toBatches cfg.swarmMaxConcurrent actions)

/-! ## Filesystem model and sandboxed writes (`tools/filesystem.ts` /
`memory.ts` / `action-executor.ts`)

The filesystem helpers of `tools/filesystem.ts` are embedded over an
explicit state, a map from physical path to UTF-8 file content:
`writeFile` is `fs.writeFileSync` (replace/create), `appendFile` is
`fs.appendFileSync` (concatenate, creating the file when absent), and
`fileSize` is `fs.statSync(path).size` with `0` when the `stat` fails
(absent file).  The `mkdirSync`-parent-directory steps are no-ops in a
path-to-content map, and `statSync(...).size` of a file written from a
string is its UTF-8 byte count. -/

def FS : Type := String → Option String

/-- `tools/filesystem.ts` `writeFile`: `fs.writeFileSync` — replace the
file's content, creating the file when absent. -/
def fsWriteFile (fs : FS) (p content : String) : FS :=
  fun q => if q = p then some content else fs q

/-- `tools/filesystem.ts` `appendFile`: `fs.appendFileSync` — concatenate
onto the existing content, creating the file when absent. -/
def fsAppendFile (fs : FS) (p content : String) : FS :=
  fun q => if q = p then some ((fs p).getD "" ++ content) else fs q

/-- `tools/filesystem.ts` `fileSize`: `fs.statSync(path).size` — the byte
size of the file's (UTF-8) content, `0` when the `stat` fails. -/
def fsFileSize (fs : FS) (p : String) : Nat :=
  ((fs p).getD "").utf8ByteSize

/-- `memory.ts` `safeWrite`: validate the path, enforce the 1 MB ceiling on
the content (and, for append, on the resulting size), then perform the
write.  The trailing journal-size warning is a log with no state effect. -/
def safeWrite (fs : FS) (inputPath content : String) (mode : String) : Except String FS :=
  match validatePath inputPath with
  | .error e => .error e
  | .ok resolved =>
    if content.utf8ByteSize > MAX_FILE_SIZE then
      .error ("Content exceeds 1MB limit for: " ++ inputPath)
    else if mode = "append" then
      if fsFileSize fs resolved + content.utf8ByteSize > MAX_FILE_SIZE then
        .error ("Appending would exceed 1MB limit for: " ++ inputPath)
      else .ok (fsAppendFile fs resolved content)
    else .ok (fsWriteFile fs resolved content)

/-- `memory.ts` `safeAppend`: prefix the timestamp separator, then append
through `safeWrite`.  The wall-clock ISO timestamp is a parameter. -/
def safeAppend (ts : String) (fs : FS) (inputPath content : String) : Except String FS :=
  safeWrite fs inputPath ("\n--- [" ++ ts ++ "] ---\n" ++ content) "append"

/-- `action.mode || 'overwrite'` (JS `||`: `undefined` and `''` are falsy). -/
def effectiveMode (a : Action) : String :=
  match a.mode with
  | some m => if m = "" then "overwrite" else m
  | none => "overwrite"

/-- `action-executor.ts` `executeWrite`; exceptions raised by
`safeWrite`/`safeAppend` propagate as `Except.error`. -/
def executeWrite (ts : String) (fs : FS) (a : Action) : Except String (ExecutionResult × FS) :=
  if !strTruthy a.path then
    .ok ({ action := a, success := false, error := some "Write action requires a path" }, fs)
  else
    let p := jsShow a.path
    if effectiveMode a = "append" then
      match safeAppend ts fs p a.content with
      | .error e => .error e
      | .ok fs2 => .ok ({ action := a, success := true }, fs2)
    else
      match safeWrite fs p a.content "overwrite" with
      | .error e => .error e
      | .ok fs2 => .ok ({ action := a, success := true }, fs2)

/-- The per-action `try`/`catch` of `executeActions` around a write action:
a thrown error becomes `{ action, success: false, error }` and leaves the
filesystem untouched. -/
def executeWriteCaught (ts : String) (fs : FS) (a : Action) : ExecutionResult × FS :=
  match executeWrite ts fs a with
  | .ok r => r
  | .error e => ({ action := a, success := false, error := some e }, fs)

/-! ## Disclosure injection (`tools/serve.ts`) -/

def AI_DISCLOSURE_FOOTER : List Char :=
  ("\n<div style=\"margin-top:40px;padding:12px;border-top:1px solid #ccc;font-size:0.85em;color:#666;\">\n  This content was created by an autonomous AI entity.\n</div>").data

def AI_META_TAG : List Char :=
  ("<meta name=\"generator\" content=\"autonomous-ai-agent\">").data

/-- The `includes` probe for the meta tag. -/
def agentMark : List Char := ("autonomous-ai-agent").data

/-- The `includes` probe for the visible footer. -/
def disclosureSentinel : List Char :=
  ("This content was created by an autonomous AI entity").data

def headTag : List Char := ("<head>").data

def bodyClose : List Char := ("</body>").data

/-- Replacement for `<head>`: `'<head>\n  ' + AI_META_TAG`. -/
def headRepl : List Char := headTag ++ ("\n  ").data ++ AI_META_TAG

/-- Replacement for `</body>`: `AI_DISCLOSURE_FOOTER + '\n</body>'`. -/
def bodyRepl : List Char := AI_DISCLOSURE_FOOTER ++ ("\n").data ++ bodyClose

/-- First half of `injectDisclosure`: add the meta tag after the first
`<head>` when a head exists and the mark is not yet present. -/
def metaStep (h : List Char) : List Char :=
  if hasSub headTag h && !hasSub agentMark h then replaceFirst headTag headRepl h else h

/-- Second half of `injectDisclosure`: add the visible footer before the
first `</body>` (or append it) when the sentinel text is not yet present. -/
def footStep (h : List Char) : List Char :=
  if !hasSub disclosureSentinel h then
    if hasSub bodyClose h then replaceFirst bodyClose bodyRepl h
    else h ++ AI_DISCLOSURE_FOOTER
  else h

/-- `tools/serve.ts` `injectDisclosure`. -/
def injectDisclosure (h : List Char) : List Char :=
  footStep (metaStep h)

/-! ## Action parser (`action-parser.ts`)

`ACTION_REGEX` and `ATTR_REGEX` are embedded as deterministic scanners:
both regexes are deterministic after the standard greedy/lazy resolution
(each greedy class is bounded by a character it excludes; the lazy group is
the text up to the *first* `</action>`).  The fuel argument equals the
remaining text length and only serves totality: every step consumes at
least one character. -/

def jsWordChar (c : Char) : Bool :=
  ('a' ≤ c && c ≤ 'z') || ('A' ≤ c && c ≤ 'Z') || ('0' ≤ c && c ≤ '9') || c = '_'

/-- JS `String.prototype.trim` (strips `\s` from both ends). -/
def jsTrim (s : List Char) : List Char :=
  ((s.dropWhile jsSpace).reverse.dropWhile jsSpace).reverse

/-- `parseInt(s, 10)`: optional whitespace, optional sign, leading decimal
digits; returns `none` where JS produces `NaN`. -/
def jsParseInt (s : List Char) : Option Int :=
  let digitsVal : List Char → Option Nat := fun ds =>
    match ds.takeWhile (fun c => '0' ≤ c && c ≤ '9') with
    | [] => none
    | ds' => some (ds'.foldl (fun n c => n * 10 + (c.toNat - '0'.toNat)) 0)
  match s.dropWhile jsSpace with
  | '-' :: ds => (digitsVal ds).map (fun n => -(n : Int))
  | '+' :: ds => (digitsVal ds).map (fun n => (n : Int))
  | ds => (digitsVal ds).map (fun n => (n : Int))

/-- One match attempt of `ATTR_REGEX` at a fixed position: `\w+`, `="`,
`[^"]*`, `"`; returns (name, value, text after the match). -/
def matchAttrAt (s : List Char) : Option (List Char × List Char × List Char) :=
  let name := s.takeWhile jsWordChar
  if name = [] then none
  else
    match s.drop name.length with
    | '=' :: '"' :: rest =>
      let v := rest.takeWhile (fun c => !(c = '"'))
      match rest.drop v.length with
      | '"' :: after => some (name, v, after)
      | _ => none
    | _ => none

/-- All `ATTR_REGEX` matches, left to right, resuming after each match. -/
def scanAttrsGo : Nat → List Char → List (List Char × List Char)
  | 0, _ => []
  | _, [] => []
  | fuel + 1, c :: s =>
    match matchAttrAt (c :: s) with
    | some (n, v, after) => (n, v) :: scanAttrsGo fuel after
    | none => scanAttrsGo fuel s

def scanAttrs (s : List Char) : List (List Char × List Char) :=
  scanAttrsGo s.length s

/-- `attrs[name]`: assignments overwrite, so the *last* binding wins. -/
def attrLookup (attrs : List (List Char × List Char)) (name : List Char) :
    Option (List Char) :=
  attrs.foldl (fun acc p => if p.1 = name then some p.2 else acc) none

/-- `action-parser.ts` `VALID_TYPES`. -/
def VALID_TYPES : List String :=
  ["write", "serve", "think", "checkpoint", "message", "fetch", "set-schedule",
   "execute", "image"]

/-- `if (attrs.x) action.x = attrs.x` (empty attribute values are falsy). -/
def optAttr (attrs : List (List Char × List Char)) (name : String) : Option String :=
  match attrLookup attrs name.data with
  | some v => if v = [] then none else some (String.mk v)
  | none => none

/-- Body of the `while` loop of `parseActions` for one regex match: parse
the attributes, drop the action when the type attribute is missing, empty,
or not in `VALID_TYPES`, otherwise build the `Action`.  (JS stores `NaN`
for an unparseable `timeout`; the model stores `none`.) -/
def buildAction (attrString content : List Char) : Option Action :=
  let attrs := scanAttrs attrString
  match attrLookup attrs ("type").data with
  | none => none
  | some ty =>
    if ty = [] || !VALID_TYPES.contains (String.mk ty) then none
    else
      some { type := String.mk ty
             content := String.mk content
             path := optAttr attrs "path"
             mode := optAttr attrs "mode"
             «to» := optAttr attrs "to"
             url := optAttr attrs "url"
             cron := optAttr attrs "cron"
             label := optAttr attrs "label"
             timeout := match attrLookup attrs ("timeout").data with
               | some v => if v = [] then none else jsParseInt v
               | none => none
             workingDir := optAttr attrs "workingDir"
             aspectRatio := optAttr attrs "aspectRatio" }

/-- One match attempt of `ACTION_REGEX` at a fixed position: literal
`<action`, `\s+`, the attribute text `[^>]*`, `>`, then the lazily-minimal
content up to the first `</action>`; returns (attribute text, content,
text after the match). -/
def matchActionAt (s : List Char) : Option (List Char × List Char × List Char) :=
  if hasPre ("<action").data s then
    match s.drop 7 with
    | [] => none
    | c :: t =>
      if jsSpace c then
        let afterWs := (c :: t).dropWhile jsSpace
        let attrString := afterWs.takeWhile (fun d => !(d = '>'))
        match afterWs.drop attrString.length with
        | '>' :: rest =>
          match splitAtSub ("</action>").data rest with
          | some (content, after) => some (attrString, content, after)
          | none => none
        | _ => none
      else none
  else none

/-- The `while ((match = ACTION_REGEX.exec(text)))` loop: find matches left
to right, resuming after each match; the captured content is trimmed, and
invalid-type matches are skipped with a warning. -/
def parseActionsGo : Nat → List Char → List Action
  | 0, _ => []
  | _, [] => []
  | fuel + 1, c :: s =>
    match matchActionAt (c :: s) with
    | some (attrString, content, after) =>
      match buildAction attrString (jsTrim content) with
      | some a => a :: parseActionsGo fuel after
      | none => parseActionsGo fuel after
    | none => parseActionsGo fuel s

/-- `action-parser.ts` `parseActions`. -/
def parseActions (text : String) : List Action :=
  parseActionsGo text.data.length text.data

/-! ## String-machinery lemmas -/

theorem hasPre_iff (p s : List Char) : hasPre p s = true ↔ ∃ t, s = p ++ t := by
  induction p generalizing s with
  | nil => simp [hasPre]
  | cons a p ih =>
    cases s with
    | nil =>
      simp only [hasPre]
      constructor
      · intro h; cases h
      · rintro ⟨t, h⟩; cases h
    | cons b s =>
      simp only [hasPre, Bool.and_eq_true, beq_iff_eq, ih, List.cons_append,
        List.cons.injEq]
      constructor
      · rintro ⟨rfl, t, rfl⟩; exact ⟨t, rfl, rfl⟩
      · rintro ⟨t, rfl, rfl⟩; exact ⟨rfl, t, rfl⟩

theorem hasSuf_iff (x u : List Char) : hasSuf x u = true ↔ ∃ b, u = b ++ x := by
  unfold hasSuf
  rw [hasPre_iff]
  constructor
  · rintro ⟨t, ht⟩
    refine ⟨t.reverse, ?_⟩
    have := congrArg List.reverse ht
    simpa using this
  · rintro ⟨b, rfl⟩
    exact ⟨b.reverse, by simp⟩

theorem hasSub_iff (t s : List Char) : hasSub t s = true ↔ ∃ b a, s = b ++ t ++ a := by
  induction s with
  | nil =>
    simp only [hasSub, List.isEmpty_iff]
    constructor
    · rintro rfl; exact ⟨[], [], rfl⟩
    · rintro ⟨b, a, h⟩
      rcases List.append_eq_nil.mp h.symm with ⟨h1, h2⟩
      exact (List.append_eq_nil.mp h1).2
  | cons c s ih =>
    simp only [hasSub, Bool.or_eq_true, hasPre_iff, ih]
    constructor
    · rintro (⟨e, he⟩ | ⟨b, a, rfl⟩)
      · exact ⟨[], e, by simpa using he⟩
      · exact ⟨c :: b, a, by simp⟩
    · rintro ⟨b, a, hba⟩
      cases b with
      | nil => exact Or.inl ⟨a, by simpa using hba⟩
      | cons d b =>
        right
        rcases List.cons.injEq .. ▸ hba with ⟨rfl, h2⟩
        exact ⟨b, a, by simpa using h2⟩

theorem hasSub_appendL {t u : List Char} (v : List Char) (h : hasSub t u = true) :
    hasSub t (u ++ v) = true := by
  rcases (hasSub_iff t u).mp h with ⟨b, a, rfl⟩
  exact (hasSub_iff ..).mpr ⟨b, a ++ v, by simp⟩

theorem hasSub_appendR {t v : List Char} (u : List Char) (h : hasSub t v = true) :
    hasSub t (u ++ v) = true := by
  rcases (hasSub_iff t v).mp h with ⟨b, a, rfl⟩
  exact (hasSub_iff ..).mpr ⟨u ++ b, a, by simp⟩

theorem hasSub_trans {t m s : List Char} (h1 : hasSub t m = true)
    (h2 : hasSub m s = true) : hasSub t s = true := by
  rcases (hasSub_iff t m).mp h1 with ⟨b, a, rfl⟩
  rcases (hasSub_iff _ s).mp h2 with ⟨b2, a2, rfl⟩
  exact (hasSub_iff ..).mpr ⟨b2 ++ b, a ++ a2, by simp⟩

theorem hasSub_mid (t u v : List Char) : hasSub t (u ++ t ++ v) = true :=
  (hasSub_iff ..).mpr ⟨u, v, rfl⟩

theorem replaceFirst_spec (n r : List Char) :
    ∀ s : List Char, hasSub n s = true →
      ∃ b a, s = b ++ n ++ a ∧ replaceFirst n r s = b ++ r ++ a := by
  intro s
  induction s with
  | nil =>
    intro h
    have hn : n = [] := by simpa [hasSub, List.isEmpty_iff] using h
    subst hn
    exact ⟨[], [], by simp [replaceFirst, hasPre]⟩
  | cons c s ih =>
    intro h
    by_cases hp : hasPre n (c :: s) = true
    · rcases (hasPre_iff ..).mp hp with ⟨e, he⟩
      refine ⟨[], e, by simpa using he, ?_⟩
      simp only [replaceFirst, hp, if_pos]
      rw [he, List.drop_left]
      simp
    · have hs : hasSub n s = true := by
        have := h
        simp only [hasSub, Bool.or_eq_true] at this
        rcases this with h1 | h2
        · exact absurd h1 hp
        · exact h2
      rcases ih hs with ⟨b, a, rfl, hres⟩
      refine ⟨c :: b, a, by simp, ?_⟩
      simp only [replaceFirst, hp]
      simpa [List.append_assoc] using hres

/-- Case analysis for an occurrence inside a concatenation: the occurrence
lies in the left part, in the right part, or spans the seam. -/
theorem sub_append_cases (t u v : List Char) (h : hasSub t (u ++ v) = true) :
    hasSub t u = true ∨ hasSub t v = true ∨
      ∃ x y, t = x ++ y ∧ x ≠ [] ∧ y ≠ [] ∧ hasSuf x u = true ∧ hasPre y v = true := by
  rcases (hasSub_iff ..).mp h with ⟨b, a, hba⟩
  have hba' : u ++ v = b ++ (t ++ a) := by simpa [List.append_assoc] using hba
  rcases List.append_eq_append_iff.mp hba' with ⟨w, hw1, hw2⟩ | ⟨w, hw1, hw2⟩
  · right; left
    exact (hasSub_iff ..).mpr ⟨w, a, by simpa [List.append_assoc] using hw2⟩
  · rcases List.append_eq_append_iff.mp hw2 with ⟨z, hz1, hz2⟩ | ⟨z, hz1, hz2⟩
    · left
      exact (hasSub_iff ..).mpr ⟨b, z, by simp [hw1, hz1, List.append_assoc]⟩
    · cases hz : w with
      | nil =>
        right; left
        subst hz
        simp only [List.nil_append] at hz1
        exact (hasSub_iff ..).mpr ⟨[], a, by simp [hz2, hz1]⟩
      | cons w0 ws =>
        cases hz' : z with
        | nil =>
          left
          subst hz'
          simp only [List.append_nil] at hz1
          exact (hasSub_iff ..).mpr ⟨b, [], by simp [hw1, hz1]⟩
        | cons z0 zs =>
          right; right
          refine ⟨w, z, hz1, by simp [hz], by simp [hz'], ?_, ?_⟩
          · exact (hasSuf_iff ..).mpr ⟨b, hw1⟩
          · exact (hasPre_iff ..).mpr ⟨a, hz2⟩

/-- A span across the seam is impossible when the right part starts with a
character that does not occur in the needle. -/
theorem sub_append_of_head (t u v : List Char) (c : Char) (hv : v.head? = some c)
    (hc : c ∉ t) (h : hasSub t (u ++ v) = true) :
    hasSub t u = true ∨ hasSub t v = true := by
  rcases sub_append_cases t u v h with h1 | h2 | ⟨x, y, rfl, _, hy, _, hpre⟩
  · exact Or.inl h1
  · exact Or.inr h2
  · exfalso
    cases y with
    | nil => exact hy rfl
    | cons d ys =>
      rcases (hasPre_iff ..).mp hpre with ⟨e, he⟩
      rw [he] at hv
      simp only [List.cons_append, List.head?_cons, Option.some.injEq] at hv
      subst hv
      exact hc (by simp)

/-- Decidable test: can a non-empty proper prefix of `t` be a suffix of `u`?
(`false` rules the span case out for a concrete `t` and `u`.) -/
def canSpanL (t u : List Char) : Bool :=
  (List.range t.length).any (fun k => decide (k ≠ 0) && hasSuf (t.take k) u)

theorem sub_append_of_noSpanL (t u v : List Char) (hcan : canSpanL t u = false)
    (h : hasSub t (u ++ v) = true) :
    hasSub t u = true ∨ hasSub t v = true := by
  rcases sub_append_cases t u v h with h1 | h2 | ⟨x, y, rfl, hx, hy, hsuf, _⟩
  · exact Or.inl h1
  · exact Or.inr h2
  · exfalso
    have hk : x.length < (x ++ y).length := by
      have : 0 < y.length := List.length_pos.mpr hy
      simp [List.length_append]
      omega
    have hx0 : x.length ≠ 0 := by
      simpa [List.length_eq_zero] using hx
    have htake : (x ++ y).take x.length = x := List.take_left x y
    have : canSpanL (x ++ y) u = true := by
      unfold canSpanL
      rw [List.any_eq_true]
      exact ⟨x.length, List.mem_range.mpr hk, by simp [hx0, htake, hsuf]⟩
    rw [hcan] at this
    cases this

/-! ## C1 — path traversal is always rejected -/

/-- C1: for every input path whose normalized slash-rooted form still
contains `..` — in particular whenever a `..` *segment* survives
normalization, since a surviving segment is a fortiori a `..` substring and
`validatePath` tests `normalized.includes('..')` — `validatePath` raises
the path-traversal error and returns no physical path.  The traversal check
is the first rule applied, so the rejection is independent of any
allow-listed zone prefix the path may match. -/
theorem C1_traversal_always_rejected (p : String)
    (h : hasSub ("..".data) (normalizeLogical p) = true) :
    validatePath p = Except.error ("Path traversal blocked: " ++ p) := by
  unfold validatePath
  simp [h]

/-- Witness for C1: `/self/..secret` normalizes to itself, still contains
`..`, and lies inside the allow-listed `/self/` zone — yet is rejected. -/
theorem C1_traversal_witness :
    hasSub ("..".data) (normalizeLogical "/self/..secret") = true ∧
    hasPre ("/self/".data) (normalizeLogical "/self/..secret") = true ∧
    validatePath "/self/..secret" = Except.error ("Path traversal blocked: " ++ "/self/..secret") :=
  ⟨by decide, by decide, C1_traversal_always_rejected "/self/..secret" (by decide)⟩

/-! ## C2 — protected write targets are blocked and never executed -/

/-- An action in the approved output of `evaluateActions` is never one the
engine blocks. -/
theorem mem_evaluateActions_not_blocked (a : Action) :
    ∀ l : List Action, a ∈ evaluateActions l → (evaluate "" "" a).decision ≠ "block" := by
  intro l
  induction l with
  | nil => simp [evaluateActions, evaluateActionsAux]
  | cons b rest ih =>
    intro hmem
    by_cases hb : (evaluate "" "" b).decision = "block"
    · apply ih
      simpa [evaluateActions, evaluateActionsAux, hb] using hmem
    · have hmem' : a ∈ b :: (evaluateActionsAux rest).1 := by
        by_cases hext : b.type ∈ EXTERNALLY_FACING_TYPES
        · simpa [evaluateActions, evaluateActionsAux, hb, hext] using hmem
        · simpa [evaluateActions, evaluateActionsAux, hb, hext] using hmem
      rcases List.mem_cons.mp hmem' with rfl | h'
      · exact hb
      · exact ih h'

/-- C2: every write action targeting the protected founding document or any
path under `/opt/agent` is blocked by `evaluate`, excluded from the
approved output of `evaluateActions`, and hence never reaches the Executor
(`runAwakening` passes exactly `evaluateActions`' output to
`executeActions`). -/
theorem C2_protected_write_blocked (a : Action) (p : String)
    (hty : a.type = "write") (hp : a.path = some p)
    (hprot : p = "/founding-document.md" ∨ hasPre ("/opt/agent".data) p.data = true) :
    (evaluate "" "" a).decision = "block" ∧ ∀ l : List Action, a ∉ executedActions l := by
  have hblock : (evaluate "" "" a).decision = "block" := by
    rcases hprot with rfl | hop
    · simp [evaluate, hty, hp, strTruthy, jsShow]
    · have hne : ¬ p = "" := by
        intro h0
        subst h0
        simp [hasPre] at hop
      by_cases hf : (p = "/founding-document.md" ∨ hasPre ("/founding-document".data) p.data = true)
      · rcases hf with rfl | hfp
        · simp [evaluate, hty, hp, strTruthy, jsShow]
        · simp [evaluate, hty, hp, strTruthy, jsShow, hne, hfp]
      · push_neg at hf
        have hf1 : ¬ p = "/founding-document.md" := hf.1
        have hf2 : hasPre ("/founding-document".data) p.data = false :=
          Bool.eq_false_iff.mpr hf.2
        simp [evaluate, hty, hp, strTruthy, jsShow, hne, hf1, hf2, hop]
  refine ⟨hblock, fun l hmem => ?_⟩
  exact mem_evaluateActions_not_blocked a l hmem hblock

/-- Witness for C2: a write into the agent's own source tree is blocked and
absent from the executed batch. -/
theorem C2_protected_write_witness :
    (evaluate "" "" { type := "write", path := some "/opt/agent/core.ts", content := "x" }).decision = "block" ∧
    ({ type := "write", path := some "/opt/agent/core.ts", content := "x" : Action}) ∉
      executedActions [{ type := "write", path := some "/opt/agent/core.ts", content := "x" }] := by
  have h := C2_protected_write_blocked
    { type := "write", path := some "/opt/agent/core.ts", content := "x" }
    "/opt/agent/core.ts" rfl rfl (Or.inr (by decide))
  exact ⟨h.1, h.2 _⟩

/-! ## C3 — the shell-command denylist always blocks -/

/-- C3: every shell-execute action whose command matches one of the six
`BLOCKED_COMMAND_PATTERNS` (recursive root/unconfined deletes, `mkfs`,
raw `dd`/redirect writes to block devices, recursive `chmod 777 /`) is
blocked by `evaluate`.  The execute branch contains no operator-controlled
escape hatch: a denylist match decides `block` unconditionally, so the
outcome is independent of the operator-granted shell access mentioned in
the proceed branch. -/
theorem C3_denylist_execute_blocked (a : Action)
    (hty : a.type = "execute")
    (hm : BLOCKED_COMMAND_PATTERNS.any (fun pat => pat.test a.content) = true) :
    (evaluate "" "" a).decision = "block" := by
  have hsome : (BLOCKED_COMMAND_PATTERNS.find? (fun pat => pat.test a.content)).isSome := by
    rw [List.find?_isSome]
    simpa using List.any_eq_true.mp hm
  rcases Option.isSome_iff_exists.mp hsome with ⟨pat, hfind⟩
  simp [evaluate, hty, hfind]

/-- Witness for C3: `rm -rf /` matches the first denylist pattern and is
blocked. -/
theorem C3_denylist_witness :
    (evaluate "" "" { type := "execute", content := "rm -rf /" }).decision = "block" :=
  C3_denylist_execute_blocked { type := "execute", content := "rm -rf /" } rfl (by decide)

/-! ## C4 — ledger invariant and transaction cap -/

/-- The transaction-history trim keeps at most 100 entries. -/
theorem trim_le_100 (l : List EnergyTransaction) :
    (if l.length > 100 then l.drop (l.length - 100) else l).length ≤ 100 := by
  by_cases h : l.length > 100
  · rw [if_pos h, List.length_drop]
    omega
  · rw [if_neg h]
    omega

/-- One `recordUsage` call re-establishes the balance invariant and the
100-transaction cap from any starting ledger. -/
theorem recordUsage_step_invariant (L : EnergyLedger) (c : RecordCall) :
    (recordStep L c).balance_usd =
      max ((recordStep L c).initial_budget_usd + (recordStep L c).total_earned_usd -
        (recordStep L c).total_spent_usd) 0 ∧
    (recordStep L c).transactions.length ≤ 100 := by
  unfold recordStep recordUsage
  dsimp only
  constructor
  · rcases lt_or_le (L.initial_budget_usd + L.total_earned_usd -
        (L.total_spent_usd + calculateCost c.usage c.modelType)) 0 with h | h
    · rw [if_pos h]
      exact (max_eq_right h.le).symm
    · rw [if_neg (not_lt.mpr h)]
      exact (max_eq_left h).symm
  · exact trim_le_100 _

/-- C4: after any non-empty sequence of `recordUsage` calls — starting from
*any* ledger state, since every call recomputes the balance from the three
running totals and re-trims the history — the ledger satisfies
`balance_usd = max(initial_budget_usd + total_earned_usd − total_spent_usd, 0)`
and holds at most 100 (the fixed cap of) most-recent transactions. -/
theorem C4_ledger_invariant (L : EnergyLedger) (c : RecordCall) (calls : List RecordCall) :
    (calls.foldl recordStep (recordStep L c)).balance_usd =
      max ((calls.foldl recordStep (recordStep L c)).initial_budget_usd +
        (calls.foldl recordStep (recordStep L c)).total_earned_usd -
        (calls.foldl recordStep (recordStep L c)).total_spent_usd) 0 ∧
    (calls.foldl recordStep (recordStep L c)).transactions.length ≤ 100 := by
  induction calls generalizing L c with
  | nil => simpa using recordUsage_step_invariant L c
  | cons c2 cs ih =>
    simpa [List.foldl_cons] using ih (recordStep L c) c2

/-! ## C5 — decision-record persistence (corrected) -/

/-- C5 counterexample: the blocked shell command `rm -rf /` is an
externally-facing action (`execute`) for which `evaluate` decides `block`,
yet `evaluateActions` persists *no* `DecisionRecord` for it: the `continue`
on a blocked decision runs before `logDecision`, so the decision store
stays empty.  This refutes the claim that a record is persisted "including
when the decision is block". -/
theorem C5_blocked_not_logged_counterexample :
    (evaluate "" "" { type := "execute", content := "rm -rf /" }).decision = "block" ∧
    "execute" ∈ EXTERNALLY_FACING_TYPES ∧
    loggedDecisions [{ type := "execute", content := "rm -rf /" }] = [] :=
  ⟨by decide, by decide, by decide⟩

/-- C5 as amended: a `DecisionRecord` is persisted for every
externally-facing action the engine *approves* (decision ≠ block); a
blocked action is dropped from execution with only a warning log and no
persisted record (the head-of-list equations make both behaviours
explicit). -/
theorem C5_decision_logging_amended (a : Action) (l : List Action)
    (hext : a.type ∈ EXTERNALLY_FACING_TYPES)
    (hnb : (evaluate "" "" a).decision ≠ "block") :
    loggedDecisions (a :: l) = evaluate "" "" a :: loggedDecisions l ∧
    evaluateActions (a :: l) = a :: evaluateActions l := by
  constructor
  · simp [loggedDecisions, evaluateActionsAux, hext, hnb]
  · simp [evaluateActions, evaluateActionsAux, hext, hnb]

/-- Witness for the amended C5: an approved serve action's decision record
is persisted. -/
theorem C5_decision_logging_witness :
    loggedDecisions [{ type := "serve", path := some "/public/x.html", content := "hi" }] =
      [evaluate "" "" { type := "serve", path := some "/public/x.html", content := "hi" }] ∧
    evaluateActions [{ type := "serve", path := some "/public/x.html", content := "hi" }] =
      [{ type := "serve", path := some "/public/x.html", content := "hi" }] := by
  have h := C5_decision_logging_amended
    { type := "serve", path := some "/public/x.html", content := "hi" } [] (by decide) (by decide)
  exact ⟨by simpa [loggedDecisions, evaluateActionsAux] using h.1,
         by simpa [evaluateActions, evaluateActionsAux] using h.2⟩

/-! ## C6 — single-flight awakening cycles -/

/-- Reachable supervisor states have `runningCount` equal to the
`isRunning` flag. -/
theorem supervisor_count_flag (events : List SupervisorEvent) :
    (reachableSupervisor events).runningCount =
      (if (reachableSupervisor events).isRunning then 1 else 0) := by
  have key : ∀ (evs : List SupervisorEvent) (s : SupervisorState),
      s.runningCount = (if s.isRunning then 1 else 0) →
      (evs.foldl stepSupervisor s).runningCount =
        (if (evs.foldl stepSupervisor s).isRunning then 1 else 0) := by
    intro evs
    induction evs with
    | nil => intro s hs; simpa using hs
    | cons e evs ih =>
      intro s hs
      rw [List.foldl_cons]
      apply ih
      cases e with
      | trigger =>
        by_cases h : s.isRunning
        · simp [stepSupervisor, triggerAwakening, h, hs]
        · simp [stepSupervisor, triggerAwakening, h, hs]
      | finish =>
        by_cases h : s.isRunning
        · simp [stepSupervisor, finishAwakening, h, hs]
        · simp [stepSupervisor, finishAwakening, h, hs]
  exact key events initialSupervisor (by simp [initialSupervisor])

/-- C6: while a cycle is running, `triggerAwakening` returns `false` and
leaves the whole supervisor state — including the started-cycle count and
the running cycle's (ghost-observed) effects — untouched, so no second
cycle starts; and along every event sequence from boot, at most one cycle
is running at any time. -/
theorem C6_single_flight :
    (∀ s : SupervisorState, s.isRunning = true → triggerAwakening s = (false, s)) ∧
    (∀ events : List SupervisorEvent, (reachableSupervisor events).runningCount ≤ 1) := by
  constructor
  · intro s hs
    simp [triggerAwakening, hs]
  · intro events
    rw [supervisor_count_flag events]
    split <;> omega

/-- Witness for C6: a concrete running state rejects a trigger unchanged,
and a concrete event sequence keeps at most one cycle running. -/
theorem C6_single_flight_witness :
    triggerAwakening ⟨true, 1, 5⟩ = (false, ⟨true, 1, 5⟩) ∧
    (reachableSupervisor
      [SupervisorEvent.trigger, SupervisorEvent.trigger, SupervisorEvent.finish,
       SupervisorEvent.trigger]).runningCount ≤ 1 :=
  ⟨C6_single_flight.1 ⟨true, 1, 5⟩ rfl, C6_single_flight.2 _⟩

/-! ## C7 — delegation budget governor -/

/-- C7: in `executeDelegations`, the accumulated cost is compared against
`config.swarmMaxBudget` before each batch starts; whenever the accumulated
cost has reached the ceiling, every remaining sub-task of the call is
assigned a `null` result (failed/skipped) and the reasoning backend is
invoked for none of them (the invoked list is empty). -/
theorem C7_budget_governor (cfg : SwarmConfig) (oracle : Action → Option DelegationResult)
    (acc : Rat) (batches : List (List Action)) (h : cfg.swarmMaxBudget ≤ acc) :
    executeDelegationsGo cfg oracle acc batches =
      ((batches.flatten).map (fun _ => none), []) := by
  cases batches with
  | nil => simp [executeDelegationsGo]
  | cons b rest => simp [executeDelegationsGo, h]

/-- Witness for C7: with a zero budget ceiling already reached, the single
pending sub-task is skipped with a `null` result and no backend call. -/
theorem C7_budget_governor_witness :
    executeDelegationsGo ⟨3, 0⟩ (fun _ => some ⟨"out", ⟨1, 1⟩⟩) 0
      [[{ type := "delegate", path := some "/public/a.html", content := "brief" }]] =
      ([none], []) := by
  have h := C7_budget_governor ⟨3, 0⟩ (fun _ => some ⟨"out", ⟨1, 1⟩⟩) 0
    [[{ type := "delegate", path := some "/public/a.html", content := "brief" }]] le_rfl
  simpa using h

/-! ## C8 — oversize writes are rejected before any mutation -/

theorem utf8Go_replicate_a (n : Nat) :
    String.utf8ByteSize.go (List.replicate n 'a') = n := by
  induction n with
  | zero => rfl
  | succ n ih =>
    rw [List.replicate_succ]
    show String.utf8ByteSize.go (List.replicate n 'a') + 'a'.utf8Size = n + 1
    rw [ih]
    rfl

theorem utf8ByteSize_replicate_a (n : Nat) :
    (String.mk (List.replicate n 'a')).utf8ByteSize = n :=
  utf8Go_replicate_a n

/-- C8: a write action whose content byte size exceeds the 1 MB ceiling —
for append mode, whose resulting size (existing file plus the
timestamp-prefixed appended content) exceeds the ceiling — produces
`ExecutionResult.success = false` through the Executor's per-action catch,
and the filesystem is returned unchanged: the write is rejected before any
bytes are written, with an explicit error rather than truncation. -/
theorem C8_oversize_write_rejected (ts : String) (fs : FS) (a : Action) (p r : String)
    (hty : a.type = "write") (hp : a.path = some p)
    (hval : validatePath p = Except.ok r)
    (hover :
      (effectiveMode a ≠ "append" ∧ a.content.utf8ByteSize > MAX_FILE_SIZE) ∨
      (effectiveMode a = "append" ∧
        fsFileSize fs r + ("\n--- [" ++ ts ++ "] ---\n" ++ a.content).utf8ByteSize >
          MAX_FILE_SIZE)) :
    (executeWriteCaught ts fs a).1.success = false ∧
    (executeWriteCaught ts fs a).2 = fs := by
  by_cases hpt : strTruthy a.path = true
  · have hshow : jsShow a.path = p := by rw [hp]; rfl
    rcases hover with ⟨hm, hsz⟩ | ⟨hm, hsz⟩
    · have hsw : safeWrite fs p a.content "overwrite" =
          Except.error ("Content exceeds 1MB limit for: " ++ p) := by
        unfold safeWrite
        rw [hval]
        dsimp only
        rw [if_pos hsz]
      simp [executeWriteCaught, executeWrite, hpt, hshow, hm, hsw]
    · have herr : ∃ e, safeAppend ts fs p a.content = Except.error e := by
        unfold safeAppend safeWrite
        rw [hval]
        dsimp only
        by_cases h1 :
            ("\n--- [" ++ ts ++ "] ---\n" ++ a.content).utf8ByteSize > MAX_FILE_SIZE
        · rw [if_pos h1]
          exact ⟨_, rfl⟩
        · rw [if_neg h1]
          rw [if_pos rfl]
          rw [if_pos hsz]
          exact ⟨_, rfl⟩
      rcases herr with ⟨e, he⟩
      simp [executeWriteCaught, executeWrite, hpt, hshow, hm, he]
  · have hpt' : strTruthy a.path = false := Bool.eq_false_iff.mpr hpt
    simp [executeWriteCaught, executeWrite, hpt']

/-- Witness for C8: writing 1 048 577 bytes to `/self/big.md` fails with
`success = false` and an unchanged filesystem. -/
theorem C8_oversize_write_witness :
    (executeWriteCaught "" (fun _ => none)
      { type := "write", path := some "/self/big.md",
        content := String.mk (List.replicate 1048577 'a') }).1.success = false ∧
    (executeWriteCaught "" (fun _ => none)
      { type := "write", path := some "/self/big.md",
        content := String.mk (List.replicate 1048577 'a') }).2 = (fun _ => none) := by
  apply C8_oversize_write_rejected "" (fun _ => none) _ "/self/big.md" "/self/big.md" rfl rfl rfl
  left
  constructor
  · decide
  · show (String.mk (List.replicate 1048577 'a')).utf8ByteSize > MAX_FILE_SIZE
    rw [utf8ByteSize_replicate_a]
    decide

/-! ## C9 — idempotence of the disclosure injector -/

/-- After the footer half runs, the sentinel text is always present. -/
theorem foot_sentinel (m : List Char) :
    hasSub disclosureSentinel (footStep m) = true := by
  unfold footStep
  by_cases hs : hasSub disclosureSentinel m = true
  · simp [hs]
  · have hs' : hasSub disclosureSentinel m = false := Bool.eq_false_iff.mpr hs
    by_cases hb : hasSub bodyClose m = true
    · rcases replaceFirst_spec bodyClose bodyRepl m hb with ⟨b, a, hm, hres⟩
      simp only [hs', Bool.not_false, if_true, hb, if_pos, hres]
      exact hasSub_trans (by decide) (hasSub_mid bodyRepl b a)
    · have hb' : hasSub bodyClose m = false := Bool.eq_false_iff.mpr hb
      simp only [hs', Bool.not_false, if_true, hb', Bool.false_eq_true, if_false]
      exact hasSub_appendR m (by decide)

/-- The footer half preserves the presence of the meta-tag mark. -/
theorem foot_keeps_agent (m : List Char) (hag : hasSub agentMark m = true) :
    hasSub agentMark (footStep m) = true := by
  unfold footStep
  by_cases hs : hasSub disclosureSentinel m = true
  · simpa [hs] using hag
  · have hs' : hasSub disclosureSentinel m = false := Bool.eq_false_iff.mpr hs
    by_cases hb : hasSub bodyClose m = true
    · rcases replaceFirst_spec bodyClose bodyRepl m hb with ⟨b, a, hm, hres⟩
      subst hm
      simp only [hs', Bool.not_false, if_true, hb, if_pos, hres]
      have hag' : hasSub agentMark (b ++ (bodyClose ++ a)) = true := by
        simpa [List.append_assoc] using hag
      rcases sub_append_of_head agentMark b (bodyClose ++ a) '<' rfl (by decide) hag'
        with h1 | h2
      · have := hasSub_appendL (bodyRepl ++ a) h1
        simpa [List.append_assoc] using this
      · rcases sub_append_of_noSpanL agentMark bodyClose a (by decide) h2 with h3 | h4
        · rw [(by decide : hasSub agentMark bodyClose = false)] at h3
          cases h3
        · have := hasSub_appendR (b ++ bodyRepl) h4
          simpa [List.append_assoc] using this
    · have hb' : hasSub bodyClose m = false := Bool.eq_false_iff.mpr hb
      simp only [hs', Bool.not_false, if_true, hb', Bool.false_eq_true, if_false]
      exact hasSub_appendL _ hag

/-- The footer half cannot create a `<head>` occurrence. -/
theorem foot_no_new_head (m : List Char) (h : hasSub headTag m = false) :
    hasSub headTag (footStep m) = false := by
  unfold footStep
  by_cases hs : hasSub disclosureSentinel m = true
  · simpa [hs] using h
  · have hs' : hasSub disclosureSentinel m = false := Bool.eq_false_iff.mpr hs
    by_cases hb : hasSub bodyClose m = true
    · rcases replaceFirst_spec bodyClose bodyRepl m hb with ⟨b, a, hm, hres⟩
      subst hm
      simp only [hs', Bool.not_false, if_true, hb, if_pos, hres]
      rw [Bool.eq_false_iff]
      intro habs
      have habs' : hasSub headTag (b ++ (bodyRepl ++ a)) = true := by
        simpa [List.append_assoc] using habs
      rcases sub_append_of_head headTag b (bodyRepl ++ a) '\n' rfl (by decide) habs'
        with h1 | h2
      · have h1' := hasSub_appendL (bodyClose ++ a) h1
        rw [← List.append_assoc, h] at h1'
        cases h1'
      · rcases sub_append_of_noSpanL headTag bodyRepl a (by decide) h2 with h3 | h4
        · rw [(by decide : hasSub headTag bodyRepl = false)] at h3
          cases h3
        · have h4' := hasSub_appendR (b ++ bodyClose) h4
          rw [h] at h4'
          cases h4'
    · have hb' : hasSub bodyClose m = false := Bool.eq_false_iff.mpr hb
      simp only [hs', Bool.not_false, if_true, hb', Bool.false_eq_true, if_false]
      rw [Bool.eq_false_iff]
      intro habs
      rcases sub_append_of_head headTag m AI_DISCLOSURE_FOOTER '\n' rfl (by decide) habs
        with h1 | h2
      · rw [h] at h1
        cases h1
      · rw [(by decide : hasSub headTag AI_DISCLOSURE_FOOTER = false)] at h2
        cases h2

/-- In the output of `injectDisclosure`, a `<head>` occurrence implies the
meta-tag mark is present (so the meta branch can never fire again). -/
theorem inject_head_implies_agent (h : List Char)
    (hhead : hasSub headTag (injectDisclosure h) = true) :
    hasSub agentMark (injectDisclosure h) = true := by
  unfold injectDisclosure at hhead ⊢
  by_cases hcond : (hasSub headTag h && !hasSub agentMark h) = true
  · have hh : hasSub headTag h = true := by
      have hc' := hcond
      simp only [Bool.and_eq_true] at hc'
      exact hc'.1
    rcases replaceFirst_spec headTag headRepl h hh with ⟨b, a, hm, hres⟩
    have hagm : hasSub agentMark (metaStep h) = true := by
      unfold metaStep
      rw [if_pos hcond, hres]
      exact hasSub_trans (by decide) (hasSub_mid headRepl b a)
    exact foot_keeps_agent _ hagm
  · have hmh : metaStep h = h := by
      unfold metaStep
      rw [if_neg hcond]
    by_cases hag : hasSub agentMark h = true
    · exact foot_keeps_agent _ (by rw [hmh]; exact hag)
    · have hagf : hasSub agentMark h = false := Bool.eq_false_iff.mpr hag
      have hhf : hasSub headTag h = false := by
        cases hx : hasSub headTag h
        · rfl
        · exact absurd (by rw [hx, hagf]; rfl) hcond
      have hno : hasSub headTag (footStep (metaStep h)) = false := by
        rw [hmh]
        exact foot_no_new_head h hhf
      rw [hno] at hhead
      cases hhead

/-- C9: `injectDisclosure` is idempotent on every markup string — the meta
tag and the visible disclosure footer are each skipped when already
present, and the first application always leaves the sentinel (and, when a
`<head>` exists, the meta-tag mark) in place. -/
theorem C9_injectDisclosure_idempotent (h : List Char) :
    injectDisclosure (injectDisclosure h) = injectDisclosure h := by
  have hsent : hasSub disclosureSentinel (injectDisclosure h) = true := foot_sentinel _
  have hm : metaStep (injectDisclosure h) = injectDisclosure h := by
    have hc : ¬(hasSub headTag (injectDisclosure h) &&
        !hasSub agentMark (injectDisclosure h)) = true := by
      intro habs
      simp only [Bool.and_eq_true] at habs
      rcases habs with ⟨h1, h2⟩
      rw [inject_head_implies_agent h h1] at h2
      exact absurd h2 (by decide)
    unfold metaStep
    rw [if_neg hc]
  have hf : footStep (injectDisclosure h) = injectDisclosure h := by
    have hc2 : ¬(!hasSub disclosureSentinel (injectDisclosure h)) = true := by
      rw [hsent]
      decide
    unfold footStep
    rw [if_neg hc2]
  calc injectDisclosure (injectDisclosure h)
      = footStep (metaStep (injectDisclosure h)) := rfl
    _ = footStep (injectDisclosure h) := by rw [hm]
    _ = injectDisclosure h := hf

/-! ## C10 — parsed actions always have an allow-listed type -/

/-- `buildAction` only ever constructs an action whose type string passed
the `VALID_TYPES` membership check. -/
theorem buildAction_type_valid {attrString content : List Char} {a : Action}
    (h : buildAction attrString content = some a) :
    VALID_TYPES.contains a.type = true := by
  unfold buildAction at h
  dsimp only at h
  rcases hl : attrLookup (scanAttrs attrString) (("type").data) with _ | ty
  · rw [hl] at h
    cases h
  · rw [hl] at h
    dsimp only at h
    by_cases hv : (ty = [] || !VALID_TYPES.contains (String.mk ty)) = true
    · rw [if_pos hv] at h
      cases h
    · rw [if_neg hv] at h
      simp only [Bool.or_eq_true, decide_eq_true_eq, Bool.not_eq_true',
        Bool.not_eq_true] at hv
      push_neg at hv
      injection h with h'
      subst h'
      cases hc : VALID_TYPES.contains (String.mk ty)
      · exact absurd hc hv.2
      · rfl

/-- Every action emitted by the parsing loop has a `VALID_TYPES` type. -/
theorem parseActionsGo_type_valid (fuel : Nat) :
    ∀ (s : List Char) (a : Action), a ∈ parseActionsGo fuel s →
      VALID_TYPES.contains a.type = true := by
  induction fuel with
  | zero =>
    intro s a h
    simp [parseActionsGo] at h
  | succ fuel ih =>
    intro s a h
    cases s with
    | nil => simp [parseActionsGo] at h
    | cons c s =>
      rw [parseActionsGo] at h
      rcases hm : matchActionAt (c :: s) with _ | ⟨attrString, content, after⟩
      · rw [hm] at h
        exact ih _ _ h
      · rw [hm] at h
        dsimp only at h
        rcases hb : buildAction attrString (jsTrim content) with _ | a'
        · rw [hb] at h
          exact ih _ _ h
        · rw [hb] at h
          rcases List.mem_cons.mp h with rfl | h'
          · exact buildAction_type_valid hb
          · exact ih _ _ h'

/-- C10: every `Action` returned by `parseActions` has a type in the fixed
set {write, serve, think, checkpoint, message, fetch, set-schedule,
execute, image}; in particular `delegate` is not in `VALID_TYPES`, so no
input text can make the parser emit a delegate action. -/
theorem C10_parseActions_valid_types (text : String) (a : Action)
    (h : a ∈ parseActions text) :
    VALID_TYPES.contains a.type = true ∧ a.type ≠ "delegate" := by
  have h1 := parseActionsGo_type_valid _ _ _ h
  refine ⟨h1, ?_⟩
  intro hd
  rw [hd] at h1
  exact absurd h1 (by decide)

/-- Witness for C10: a parsed think action has an allow-listed,
non-delegate type. -/
theorem C10_parseActions_witness :
    VALID_TYPES.contains ({ type := "think", content := "ponder" : Action }).type = true ∧
    ({ type := "think", content := "ponder" : Action }).type ≠ "delegate" :=
  C10_parseActions_valid_types "<action type=\"think\">ponder</action>"
    { type := "think", content := "ponder" } (by decide)

end Gurgeh
